import Mathlib

/-!
Shallow embedding of qubicDB's vector loader wrapper
(`src/patches/vector-wrapper/llama-go.cpp`).

The wrapper drives the external llama.cpp inference backend.  The backend
itself (tokenization, the encode/decode forward pass, per-position and
per-sequence raw-embedding retrieval, and the internal inference memory)
is not part of the repository source; it is modelled abstractly, as
deterministic functions carried by the `Model` and `Context` records,
following the interface the specification gives for it.  Floating point
values are modelled as real numbers.
-/

namespace LlamaGo

/-- A vocabulary token id (`llama_token`, an int32). -/
abbrev Token := Int

/-- Abstract internal inference state of a context (the llama.cpp memory /
KV state).  `llama_memory_clear` resets it to `[]`. -/
abbrev Memory := List Int

/-- The caller-owned output float area, indexed by pointer offset.
Writes through `float * out = output + embd_pos * n_embd` become updates
of this function. -/
abbrev Buffer := Int → ℝ

/-- `llama_pooling_type` values; the wrapper only distinguishes
`LLAMA_POOLING_TYPE_NONE` from the rest. -/
inductive PoolingType where
  | none
  | mean
  | cls
  | last
  | rank
deriving DecidableEq

/-- Modelled from the spec: a loaded model (opaque backend handle).
Attributes are the capability flags, the embedding dimensionality
(`llama_model_n_embd`), the designated separator id (`llama_vocab_sep`),
and the deterministic tokenizer (`common_tokenize` with both special-token
flags set, as the wrapper calls it). -/
structure Model where
  has_encoder : Bool
  has_decoder : Bool
  n_embd : Nat
  sep : Token
  tokenize : String → List Token

/-- `llama_batch`: per-token id, position, sequence-id list and
output-extraction flag, built by repeated `common_batch_add`. -/
structure Batch where
  token : List Token
  pos : List Int
  seq_id : List (List Int)
  logits : List Bool
deriving DecidableEq

/-- `llama_batch_init(n, 0, 1)`: a batch with `n_tokens = 0`. -/
def emptyBatch : Batch := ⟨[], [], [], []⟩

/-- Modelled from the spec: a context (inference session) bound to one
model.  Carries the configured batch capacity (`llama_n_batch`; the
wrapper sets `n_ctx = n_batch = n_ubatch` to one size), the pooling mode,
the deterministic backend operations consumed through the interface the
spec describes (encode/decode pass on the cleared memory returning the
new state or failure, and per-position / per-sequence raw-embedding
retrieval, which may return "not available"), and the current internal
inference state `mem`. -/
structure Context where
  model : Model
  n_batch : Nat
  pooling : PoolingType
  encode : Memory → Batch → Option Memory
  decode : Memory → Batch → Option Memory
  embd_ith : Memory → Nat → Option (List ℝ)
  embd_seq : Memory → Token → Option (List ℝ)
  mem : Memory

/-- The process-wide normalization setting of the wrapper:
`static int32_t embd_normalize = 2; // 2 = euclidean`. -/
def embd_normalize : Int := 2

/-- Modelled from the spec: `common_embd_normalize` (the Normalizer,
§4.6) is a llama.cpp helper not under `src/`.  For the Euclidean scheme
(`embd_norm = 2`) it reads `n` components and divides every component by
the vector's L2 norm; if the norm is (numerically) zero it emits the
vector unchanged rather than dividing.  Other schemes are out of scope
for this build (the wrapper always passes 2) and are modelled as the
identity on the read prefix. -/
noncomputable def common_embd_normalize (inp : List ℝ) (n : Nat) (embd_norm : Int) : List ℝ :=
  let v := (List.range n).map (fun i => inp.getD i 0)
  if embd_norm = 2 then
    let s := Real.sqrt ((v.map (fun x => x * x)).sum)
    if s = 0 then v else v.map (fun x => x / s)
  else v

/-- Modelled from the spec: `common_batch_add` (llama.cpp helper, not
under `src/`) appends one token with its position, its sequence-id list
and its output-extraction flag to the batch. -/
def common_batch_add (batch : Batch) (id : Token) (pos : Int) (seq_ids : List Int)
    (logits : Bool) : Batch :=
  { token := batch.token ++ [id]
    pos := batch.pos ++ [pos]
    seq_id := batch.seq_id ++ [seq_ids]
    logits := batch.logits ++ [logits] }

/-- The indexed loop body of `batch_add_seq`: starting at position `i`,
add each remaining token. -/
def addSeqAux (batch : Batch) (tokens : List Token) (i : Nat) (seq_id : Int) : Batch :=
  match tokens with
  | [] => batch
  | t :: ts => addSeqAux (common_batch_add batch t i [seq_id] true) ts (i + 1) seq_id

/-- `batch_add_seq`: for `i = 0 .. tokens.size()-1`,
`common_batch_add(batch, tokens[i], i, { seq_id }, true)`. -/
def batch_add_seq (batch : Batch) (tokens : List Token) (seq_id : Int) : Batch :=
  addSeqAux batch tokens 0 seq_id

/-- One pointer-region write: `n` floats at a given offset. -/
abbrev Write := Int × List ℝ

/-- Writing a vector at an offset into the caller's float area. -/
def writeVec (buf : Buffer) (off : Int) (v : List ℝ) : Buffer :=
  fun j => if off ≤ j ∧ j < off + v.length then v.getD (j - off).toNat 0 else buf j

/-- Apply a sequence of writes in order. -/
def applyWrites (buf : Buffer) (ws : List Write) : Buffer :=
  ws.foldl (fun b w => writeVec b w.1 w.2) buf

/-- The extraction loop of `batch_decode` over the token indices: skip
tokens whose `logits` flag is unset; for the rest retrieve the raw
embedding (per token position when pooling is NONE, otherwise per the
token's first sequence id), treating a null retrieval as the fatal
`GGML_ASSERT` (`none` result); normalize it and record the write at
`embd_pos * n_embd`. -/
noncomputable def extract_loop (ctx : Context) (mem : Memory) (batch : Batch)
    (n_embd : Nat) (embd_norm : Int) : List Nat → Option (List Write)
  | [] => some []
  | i :: rest =>
    if batch.logits.getD i false = false then
      extract_loop ctx mem batch n_embd embd_norm rest
    else
      let eOpt : Option (List ℝ × Int) :=
        if ctx.pooling = PoolingType.none then
          (ctx.embd_ith mem i).map (fun e => (e, (i : Int)))
        else
          let s := (batch.seq_id.getD i []).headD 0
          (ctx.embd_seq mem s).map (fun e => (e, s))
      match eOpt with
      | Option.none => Option.none
      | some (embd, embd_pos) =>
        (extract_loop ctx mem batch n_embd embd_norm rest).map
          (fun ws => (embd_pos * (n_embd : Int), common_embd_normalize embd n_embd embd_norm) :: ws)

/-- The dispatch of `batch_decode` lines 28–36: after
`llama_memory_clear` (state `[]`), run the encode pass for an
encoder-only model, the decode pass for a decoder-only model, and no
pass otherwise; `none` is the `< 0` failure return. -/
def run_pass (ctx : Context) (batch : Batch) : Option Memory :=
  if ctx.model.has_encoder && !ctx.model.has_decoder then ctx.encode [] batch
  else if !ctx.model.has_encoder && ctx.model.has_decoder then ctx.decode [] batch
  else some []

/-- `batch_decode`: clear the memory, run the pass, then extract, normalize
and write each flagged token's vector.  Result: `none` for the fatal
`GGML_ASSERT`, otherwise the C return value (−1 or 0), the resulting
output area, and the context's internal state after the call. -/
noncomputable def batch_decode (ctx : Context) (batch : Batch) (output : Buffer)
    (n_seq : Nat) (n_embd : Nat) (embd_norm : Int) : Option (Int × Buffer × Memory) :=
  match run_pass ctx batch with
  | Option.none => some (-1, output, [])
  | some mem1 =>
    match extract_loop ctx mem1 batch n_embd embd_norm (List.range batch.token.length) with
    | Option.none => Option.none
    | some ws => some (0, applyWrites output ws, mem1)

/-- `embed_size`: −1 for a model with both encoder and decoder
capability, else `llama_model_n_embd`. -/
def embed_size (model : Model) : Int :=
  if model.has_encoder && model.has_decoder then -1 else (model.n_embd : Int)

/-- Outcome of `embed_text`: the fatal assertion, or the returned status
together with the value stored in `*out_tokens`, the caller's output
area, and the context after the call. -/
inductive EmbedResult where
  | fatal
  | ret (status : Int) (out_tokens : Nat) (out : Buffer) (ctx : Context)

/-- The returned status, when the call returns. -/
def EmbedResult.status : EmbedResult → Option Int
  | .fatal => Option.none
  | .ret s _ _ _ => some s

/-- The value stored into `*out_tokens`, when the call returns. -/
def EmbedResult.tokens : EmbedResult → Option Nat
  | .fatal => Option.none
  | .ret _ n _ _ => some n

/-- The caller's output area at offset `j`, when the call returns. -/
def EmbedResult.bufAt (r : EmbedResult) (j : Int) : Option ℝ :=
  match r with
  | .fatal => Option.none
  | .ret _ _ b _ => some (b j)

/-- Everything the caller observes: status, token count, output area. -/
def EmbedResult.obs : EmbedResult → Option (Int × Nat × Buffer)
  | .fatal => Option.none
  | .ret s n b _ => some (s, n, b)

/-- `embed_text` (lines 118–145): tokenize, store the token count,
reject over-capacity input with 1, reject empty input or a missing final
separator with 2, otherwise build the single-sequence batch and run
`batch_decode`, returning 3 on its failure and 0 on success. -/
noncomputable def embed_text (ctx : Context) (text : String) (out_embeddings : Buffer) :
    EmbedResult :=
  let model := ctx.model
  let n_batch := ctx.n_batch
  let inp := model.tokenize text
  let out_tokens := inp.length
  if inp.length > n_batch then
    EmbedResult.ret 1 out_tokens out_embeddings ctx
  else if inp = [] ∨ inp.getLast? ≠ some model.sep then
    EmbedResult.ret 2 out_tokens out_embeddings ctx
  else
    let batch := batch_add_seq emptyBatch inp 0
    let n_embd := model.n_embd
    match batch_decode ctx batch out_embeddings 1 n_embd embd_normalize with
    | Option.none => EmbedResult.fatal
    | some (r, buf, mem1) =>
      if r ≠ 0 then EmbedResult.ret 3 out_tokens buf { ctx with mem := mem1 }
      else EmbedResult.ret 0 out_tokens buf { ctx with mem := mem1 }

/-! ### Helper lemmas -/

/-- The indexed loop of `batch_add_seq` appends the tokens with
consecutive positions, a constant singleton sequence-id list, and a set
output flag. -/
theorem addSeqAux_eq (tokens : List Token) : ∀ (b : Batch) (i : Nat) (s : Int),
    addSeqAux b tokens i s =
      { token := b.token ++ tokens
        pos := b.pos ++ (List.range' i tokens.length).map (fun k => (k : Int))
        seq_id := b.seq_id ++ List.replicate tokens.length [s]
        logits := b.logits ++ List.replicate tokens.length true } := by
  induction tokens with
  | nil => intro b i s; simp [addSeqAux]
  | cons t ts ih =>
    intro b i s
    rw [addSeqAux, ih]
    simp [common_batch_add, List.range'_succ, List.replicate_succ]

/-- The batch built by `embed_text` from the token sequence. -/
theorem batch_add_seq_eq (tokens : List Token) (s : Int) :
    batch_add_seq emptyBatch tokens s =
      { token := tokens
        pos := (List.range tokens.length).map (fun k => (k : Int))
        seq_id := List.replicate tokens.length [s]
        logits := List.replicate tokens.length true } := by
  rw [batch_add_seq, addSeqAux_eq]
  simp [emptyBatch, List.range_eq_range']

/-- `common_embd_normalize` always emits exactly `n` components. -/
theorem common_embd_normalize_length (inp : List ℝ) (n : Nat) (en : Int) :
    (common_embd_normalize inp n en).length = n := by
  unfold common_embd_normalize
  by_cases h2 : en = 2 <;> simp [h2]
  split <;> simp

/-- `getD` on a replicated list inside its length. -/
theorem getD_replicate_lt {α : Type} (a d : α) {i n : Nat} (h : i < n) :
    (List.replicate n a).getD i d = a := by
  rw [List.getD_eq_getElem?_getD, List.getElem?_replicate, if_pos h]
  rfl

/-- A write leaves the buffer unchanged outside its own region. -/
theorem writeVec_outside (buf : Buffer) (off : Int) (v : List ℝ) (j : Int)
    (h : j < off ∨ off + v.length ≤ j) : writeVec buf off v j = buf j := by
  unfold writeVec
  rw [if_neg]
  omega

/-- A sequence of writes leaves the buffer unchanged outside the union of
the written regions. -/
theorem applyWrites_outside (ws : List Write) : ∀ (buf : Buffer) (j : Int),
    (∀ w ∈ ws, j < w.1 ∨ w.1 + (w.2).length ≤ j) → applyWrites buf ws j = buf j := by
  induction ws with
  | nil => intro buf j _; rfl
  | cons w ws ih =>
    intro buf j h
    rw [applyWrites, List.foldl_cons]
    have := ih (writeVec buf w.1 w.2) j (fun u hu => h u (List.mem_cons_of_mem _ hu))
    rw [applyWrites] at this
    rw [this, writeVec_outside _ _ _ _ (h w (List.mem_cons_self _ _))]

/-- In a non-NONE (per-sequence) pooling mode, over indices whose output
flag is set and whose first sequence id is 0, the extraction loop
retrieves the sequence-0 pooled vector each time and records a write of
its normalization at offset `0 * n_embd`. -/
theorem extract_loop_seq (ctx : Context) (mem : Memory) (batch : Batch) (n_embd : Nat)
    (en : Int) (v : List ℝ) (hpool : ctx.pooling ≠ PoolingType.none)
    (hv : ctx.embd_seq mem 0 = some v) :
    ∀ L : List Nat, (∀ i ∈ L, batch.logits.getD i false = true) →
      (∀ i ∈ L, (batch.seq_id.getD i []).headD 0 = 0) →
      extract_loop ctx mem batch n_embd en L =
        some (L.map (fun _ => ((0 : Int) * (n_embd : Int),
          common_embd_normalize v n_embd en))) := by
  intro L
  induction L with
  | nil => intro _ _; simp [extract_loop]
  | cons i rest ih =>
    intro hlog hsid
    rw [extract_loop]
    rw [if_neg (by rw [hlog i (List.mem_cons_self _ _)]; simp)]
    rw [if_neg hpool]
    simp only [hsid i (List.mem_cons_self _ _), hv, Option.map_some]
    rw [ih (fun u hu => hlog u (List.mem_cons_of_mem _ hu))
        (fun u hu => hsid u (List.mem_cons_of_mem _ hu))]
    simp

/-- In the NONE (per-token) pooling mode, over indices whose output flag
is set and whose per-position retrieval is available, the extraction
loop records one write per index, at offset `i * n_embd`. -/
theorem extract_loop_tok (ctx : Context) (mem : Memory) (batch : Batch) (n_embd : Nat)
    (en : Int) (hpool : ctx.pooling = PoolingType.none) :
    ∀ L : List Nat, (∀ i ∈ L, batch.logits.getD i false = true) →
      (∀ i ∈ L, (ctx.embd_ith mem i).isSome = true) →
      extract_loop ctx mem batch n_embd en L =
        some (L.map (fun i => (Int.ofNat i * (n_embd : Int),
          common_embd_normalize ((ctx.embd_ith mem i).getD []) n_embd en))) := by
  intro L
  induction L with
  | nil => intro _ _; simp [extract_loop]
  | cons i rest ih =>
    intro hlog hv
    rw [extract_loop]
    rw [if_neg (by rw [hlog i (List.mem_cons_self _ _)]; simp)]
    rw [if_pos hpool]
    obtain ⟨e, he⟩ := Option.isSome_iff_exists.mp (hv i (List.mem_cons_self _ _))
    rw [he]
    rw [ih (fun u hu => hlog u (List.mem_cons_of_mem _ hu))
        (fun u hu => hv u (List.mem_cons_of_mem _ hu))]
    simp [he]

/-- A list with a last element is nonempty. -/
theorem ne_nil_of_getLast?_eq_some {α : Type} {l : List α} {a : α}
    (h : l.getLast? = some a) : l ≠ [] := by
  intro hl
  rw [hl] at h
  simp at h

/-- Over-capacity branch of `embed_text`: tokenization longer than the
batch capacity returns status 1 with the true token count, leaving the
output area and the context untouched. -/
theorem embed_text_over (ctx : Context) (text : String) (out : Buffer)
    (h : (ctx.model.tokenize text).length > ctx.n_batch) :
    embed_text ctx text out =
      EmbedResult.ret 1 (ctx.model.tokenize text).length out ctx := by
  simp only [embed_text]
  rw [if_pos h]

/-- Missing-separator branch of `embed_text`: within capacity, an empty
tokenization or a final token other than the separator returns status 2
with the true token count, leaving the output area and the context
untouched. -/
theorem embed_text_sep (ctx : Context) (text : String) (out : Buffer)
    (hle : (ctx.model.tokenize text).length ≤ ctx.n_batch)
    (h2 : ctx.model.tokenize text = [] ∨
      (ctx.model.tokenize text).getLast? ≠ some ctx.model.sep) :
    embed_text ctx text out =
      EmbedResult.ret 2 (ctx.model.tokenize text).length out ctx := by
  simp only [embed_text]
  rw [if_neg (not_lt.mpr hle), if_pos h2]

/-- Backend-failure branch of `embed_text`: when validation passes but
the dispatched pass fails, the call returns status 3 with the true token
count and the untouched output area; the context's inference state is
the cleared one. -/
theorem embed_text_fail (ctx : Context) (text : String) (out : Buffer)
    (hle : (ctx.model.tokenize text).length ≤ ctx.n_batch)
    (hsep : (ctx.model.tokenize text).getLast? = some ctx.model.sep)
    (hm : run_pass ctx (batch_add_seq emptyBatch (ctx.model.tokenize text) 0) = Option.none) :
    embed_text ctx text out =
      EmbedResult.ret 3 (ctx.model.tokenize text).length out { ctx with mem := [] } := by
  simp only [embed_text]
  rw [if_neg (not_lt.mpr hle),
    if_neg (by push_neg; exact ⟨ne_nil_of_getLast?_eq_some hsep, hsep⟩)]
  simp only [batch_decode, hm]
  norm_num

/-- Success spine of `embed_text`: when validation passes, the pass
succeeds with state `m` and extraction over the built batch yields the
writes `ws`, the call returns status 0, the true token count, the output
area with the writes applied, and the context with state `m`. -/
theorem embed_text_run (ctx : Context) (text : String) (out : Buffer)
    (hle : (ctx.model.tokenize text).length ≤ ctx.n_batch)
    (hsep : (ctx.model.tokenize text).getLast? = some ctx.model.sep)
    (m : Memory)
    (hm : run_pass ctx (batch_add_seq emptyBatch (ctx.model.tokenize text) 0) = some m)
    (ws : List Write)
    (hws : extract_loop ctx m (batch_add_seq emptyBatch (ctx.model.tokenize text) 0)
      ctx.model.n_embd embd_normalize
      (List.range (batch_add_seq emptyBatch (ctx.model.tokenize text) 0).token.length) =
      some ws) :
    embed_text ctx text out =
      EmbedResult.ret 0 (ctx.model.tokenize text).length (applyWrites out ws)
        { ctx with mem := m } := by
  simp only [embed_text]
  rw [if_neg (not_lt.mpr hle),
    if_neg (by push_neg; exact ⟨ne_nil_of_getLast?_eq_some hsep, hsep⟩)]
  simp only [batch_decode, hm, hws]
  norm_num

/-- Full success characterization in a per-sequence pooling mode: the
call writes the normalized sequence-0 pooled vector once per token, each
time at offset `0 * n_embd`. -/
theorem embed_text_ok_seq (ctx : Context) (text : String) (out : Buffer)
    (hpool : ctx.pooling ≠ PoolingType.none)
    (hle : (ctx.model.tokenize text).length ≤ ctx.n_batch)
    (hsep : (ctx.model.tokenize text).getLast? = some ctx.model.sep)
    (m : Memory)
    (hm : run_pass ctx (batch_add_seq emptyBatch (ctx.model.tokenize text) 0) = some m)
    (v : List ℝ) (hv : ctx.embd_seq m 0 = some v) :
    embed_text ctx text out =
      EmbedResult.ret 0 (ctx.model.tokenize text).length
        (applyWrites out ((List.range (ctx.model.tokenize text).length).map
          (fun _ => ((0 : Int) * (ctx.model.n_embd : Int),
            common_embd_normalize v ctx.model.n_embd embd_normalize))))
        { ctx with mem := m } := by
  apply embed_text_run ctx text out hle hsep m hm
  rw [batch_add_seq_eq]
  refine extract_loop_seq ctx m _ ctx.model.n_embd embd_normalize v hpool hv _ ?_ ?_
  · intro i hi
    have hi' : i < (ctx.model.tokenize text).length := List.mem_range.mp hi
    exact getD_replicate_lt true false hi'
  · intro i hi
    have hi' : i < (ctx.model.tokenize text).length := List.mem_range.mp hi
    rw [getD_replicate_lt ([0] : List Int) [] hi']
    rfl

/-- Full success characterization in the per-token pooling mode: the
call writes, for each token position `i`, the normalized per-position
vector at offset `i * n_embd`. -/
theorem embed_text_ok_tok (ctx : Context) (text : String) (out : Buffer)
    (hpool : ctx.pooling = PoolingType.none)
    (hle : (ctx.model.tokenize text).length ≤ ctx.n_batch)
    (hsep : (ctx.model.tokenize text).getLast? = some ctx.model.sep)
    (m : Memory)
    (hm : run_pass ctx (batch_add_seq emptyBatch (ctx.model.tokenize text) 0) = some m)
    (hv : ∀ i < (ctx.model.tokenize text).length, (ctx.embd_ith m i).isSome = true) :
    embed_text ctx text out =
      EmbedResult.ret 0 (ctx.model.tokenize text).length
        (applyWrites out ((List.range (ctx.model.tokenize text).length).map
          (fun i => (Int.ofNat i * (ctx.model.n_embd : Int),
            common_embd_normalize ((ctx.embd_ith m i).getD []) ctx.model.n_embd
              embd_normalize))))
        { ctx with mem := m } := by
  apply embed_text_run ctx text out hle hsep m hm
  rw [batch_add_seq_eq]
  refine extract_loop_tok ctx m _ ctx.model.n_embd embd_normalize hpool _ ?_ ?_
  · intro i hi
    have hi' : i < (ctx.model.tokenize text).length := List.mem_range.mp hi
    exact getD_replicate_lt true false hi'
  · intro i hi
    exact hv i (List.mem_range.mp hi)

/-- Fatal-assertion spine of `embed_text`: when validation passes, the
pass succeeds, but a required raw embedding is unavailable, the call
aborts. -/
theorem embed_text_fatal (ctx : Context) (text : String) (out : Buffer)
    (hle : (ctx.model.tokenize text).length ≤ ctx.n_batch)
    (hsep : (ctx.model.tokenize text).getLast? = some ctx.model.sep)
    (m : Memory)
    (hm : run_pass ctx (batch_add_seq emptyBatch (ctx.model.tokenize text) 0) = some m)
    (hws : extract_loop ctx m (batch_add_seq emptyBatch (ctx.model.tokenize text) 0)
      ctx.model.n_embd embd_normalize
      (List.range (batch_add_seq emptyBatch (ctx.model.tokenize text) 0).token.length) =
      Option.none) :
    embed_text ctx text out = EmbedResult.fatal := by
  simp only [embed_text]
  rw [if_neg (not_lt.mpr hle),
    if_neg (by push_neg; exact ⟨ne_nil_of_getLast?_eq_some hsep, hsep⟩)]
  simp only [batch_decode, hm, hws]

/-- The extraction loop only reads the pooling mode and the two
retrieval functions of the context. -/
theorem extract_loop_congr (c c' : Context) (h1 : c.pooling = c'.pooling)
    (h2 : c.embd_ith = c'.embd_ith) (h3 : c.embd_seq = c'.embd_seq)
    (mem : Memory) (batch : Batch) (ne : Nat) (en : Int) :
    ∀ L : List Nat, extract_loop c mem batch ne en L = extract_loop c' mem batch ne en L := by
  intro L
  induction L with
  | nil => rfl
  | cons i rest ih => simp only [extract_loop, h1, h2, h3, ih]

/-- Whatever observable outcome `embed_text` yields, it does not depend
on the context's incoming internal inference state: the wrapper clears
that state before the forward pass. -/
theorem embed_text_obs_mem (ctx : Context) (m : Memory) (text : String) (out : Buffer) :
    (embed_text { ctx with mem := m } text out).obs = (embed_text ctx text out).obs := by
  obtain ⟨model, nb, pool, enc, dec, ei, es, mem0⟩ := ctx
  dsimp only
  by_cases h1 : (model.tokenize text).length > nb
  · rw [embed_text_over ⟨model, nb, pool, enc, dec, ei, es, m⟩ text out h1,
      embed_text_over ⟨model, nb, pool, enc, dec, ei, es, mem0⟩ text out h1]
    rfl
  · have hle : (model.tokenize text).length ≤ nb := not_lt.mp h1
    by_cases h2 : model.tokenize text = [] ∨
        (model.tokenize text).getLast? ≠ some model.sep
    · rw [embed_text_sep ⟨model, nb, pool, enc, dec, ei, es, m⟩ text out hle h2,
        embed_text_sep ⟨model, nb, pool, enc, dec, ei, es, mem0⟩ text out hle h2]
      rfl
    · push_neg at h2
      obtain ⟨hne, hsep⟩ := h2
      cases hrp : run_pass ⟨model, nb, pool, enc, dec, ei, es, mem0⟩
          (batch_add_seq emptyBatch (model.tokenize text) 0) with
      | none =>
        rw [embed_text_fail ⟨model, nb, pool, enc, dec, ei, es, m⟩ text out hle hsep hrp,
          embed_text_fail ⟨model, nb, pool, enc, dec, ei, es, mem0⟩ text out hle hsep hrp]
      | some m1 =>
        cases hel : extract_loop ⟨model, nb, pool, enc, dec, ei, es, mem0⟩ m1
            (batch_add_seq emptyBatch (model.tokenize text) 0) model.n_embd embd_normalize
            (List.range (batch_add_seq emptyBatch (model.tokenize text) 0).token.length) with
        | none =>
          rw [embed_text_fatal ⟨model, nb, pool, enc, dec, ei, es, m⟩ text out hle hsep m1 hrp
              ((extract_loop_congr ⟨model, nb, pool, enc, dec, ei, es, m⟩
                ⟨model, nb, pool, enc, dec, ei, es, mem0⟩ rfl rfl rfl m1 _ _ _ _).trans hel),
            embed_text_fatal ⟨model, nb, pool, enc, dec, ei, es, mem0⟩ text out hle hsep m1 hrp
              hel]
        | some ws =>
          rw [embed_text_run ⟨model, nb, pool, enc, dec, ei, es, m⟩ text out hle hsep m1 hrp ws
              ((extract_loop_congr ⟨model, nb, pool, enc, dec, ei, es, m⟩
                ⟨model, nb, pool, enc, dec, ei, es, mem0⟩ rfl rfl rfl m1 _ _ _ _).trans hel),
            embed_text_run ⟨model, nb, pool, enc, dec, ei, es, mem0⟩ text out hle hsep m1 hrp
              ws hel]

/-- A sum of squares is nonnegative. -/
theorem sum_sq_nonneg (l : List ℝ) : 0 ≤ (l.map fun x => x * x).sum :=
  List.sum_nonneg (fun x hx => by
    obtain ⟨y, _, rfl⟩ := List.mem_map.mp hx
    exact mul_self_nonneg y)

/-- A vanishing sum of nonnegative reals has all terms zero. -/
theorem all_zero_of_sum_eq_zero (l : List ℝ) :
    (∀ x ∈ l, 0 ≤ x) → l.sum = 0 → ∀ x ∈ l, x = 0 := by
  induction l with
  | nil => simp
  | cons a t ih =>
    intro hpos hsum x hx
    have ha : 0 ≤ a := hpos a (List.mem_cons_self _ _)
    have ht : 0 ≤ t.sum :=
      List.sum_nonneg (fun y hy => hpos y (List.mem_cons_of_mem _ hy))
    rw [List.sum_cons] at hsum
    have ha0 : a = 0 := by linarith
    have hts : t.sum = 0 := by linarith
    rcases List.mem_cons.mp hx with h | h
    · rw [h, ha0]
    · exact ih (fun y hy => hpos y (List.mem_cons_of_mem _ hy)) hts x h

/-- Dividing a vector by its nonvanishing L2 norm yields unit sum of
squares. -/
theorem sum_sq_div_sqrt (v : List ℝ) (h : (v.map fun x => x * x).sum ≠ 0) :
    ((v.map fun x => x / Real.sqrt ((v.map fun x => x * x).sum)).map
      fun x => x * x).sum = 1 := by
  have hS0 : 0 ≤ (v.map fun x => x * x).sum := sum_sq_nonneg v
  have hs : Real.sqrt ((v.map fun x => x * x).sum) ≠ 0 := by
    rw [Ne, Real.sqrt_eq_zero hS0]
    exact h
  rw [List.map_map]
  have hfun : ((fun x => x * x) ∘
        fun x => x / Real.sqrt ((v.map fun x => x * x).sum)) =
      fun x => (x * x) * (Real.sqrt ((v.map fun x => x * x).sum) *
        Real.sqrt ((v.map fun x => x * x).sum))⁻¹ := by
    funext x
    simp only [Function.comp, div_eq_mul_inv, mul_inv]
    ring
  rw [hfun, List.sum_map_mul_right, Real.mul_self_sqrt hS0,
    mul_inv_cancel₀ h]

/-- The read prefix of the input, as the Normalizer sees it. -/
noncomputable def readComponents (inp : List ℝ) (n : Nat) : List ℝ :=
  (List.range n).map (fun i => inp.getD i 0)

/-- Under the Euclidean scheme, a nonvanishing input norm yields an
output of L2 norm exactly 1. -/
theorem common_embd_normalize_norm_one (inp : List ℝ) (n : Nat)
    (h : Real.sqrt (((readComponents inp n).map fun x => x * x).sum) ≠ 0) :
    Real.sqrt ((((common_embd_normalize inp n 2).map fun x => x * x)).sum) = 1 := by
  have hS : ((readComponents inp n).map fun x => x * x).sum ≠ 0 := by
    intro h0
    rw [h0, Real.sqrt_zero] at h
    exact h rfl
  unfold common_embd_normalize
  rw [if_pos rfl]
  simp only [readComponents] at h hS ⊢
  rw [if_neg h]
  rw [sum_sq_div_sqrt _ hS, Real.sqrt_one]

/-- Under the Euclidean scheme, a (numerically) zero input norm yields
the zero vector, with no division. -/
theorem common_embd_normalize_zero (inp : List ℝ) (n : Nat)
    (h : Real.sqrt (((readComponents inp n).map fun x => x * x).sum) = 0) :
    common_embd_normalize inp n 2 = List.replicate n 0 := by
  have hS0 : 0 ≤ ((readComponents inp n).map fun x => x * x).sum :=
    sum_sq_nonneg _
  have hS : ((readComponents inp n).map fun x => x * x).sum = 0 :=
    (Real.sqrt_eq_zero hS0).mp h
  have hall : ∀ x ∈ readComponents inp n, x = 0 := by
    intro x hx
    have := all_zero_of_sum_eq_zero _
      (fun y hy => by
        obtain ⟨z, _, rfl⟩ := List.mem_map.mp hy
        exact mul_self_nonneg z) hS (x * x) (List.mem_map_of_mem _ hx)
    exact mul_self_eq_zero.mp this
  unfold common_embd_normalize
  rw [if_pos rfl]
  simp only [readComponents] at h hall ⊢
  rw [if_pos h]
  refine List.eq_replicate_iff.mpr ⟨by simp, ?_⟩
  exact hall

/-! ### Concrete instances for witnesses and counterexamples -/

/-- The all-zero caller buffer. -/
def zeroBuf : Buffer := fun _ => 0

/-- Encoder-only model: dimension 1, separator id 2, every text
tokenizing to the single separator token. -/
def encModel : Model := ⟨true, false, 1, 2, fun _ => [2]⟩

/-- A context over `encModel` whose tokenization overflows the capacity. -/
def c2Ctx : Context :=
  ⟨⟨true, false, 1, 2, fun _ => [1, 2, 3]⟩, 2, PoolingType.mean,
    fun _ _ => some [], fun _ _ => some [], fun _ _ => some [1], fun _ _ => some [1], []⟩

/-- A context over a model whose tokenization misses the separator. -/
def c3Ctx : Context :=
  ⟨⟨true, false, 1, 2, fun _ => [5]⟩, 4, PoolingType.mean,
    fun _ _ => some [], fun _ _ => some [], fun _ _ => some [1], fun _ _ => some [1], []⟩

/-- A context over a model whose tokenization is empty. -/
def c10Ctx : Context :=
  ⟨⟨true, false, 1, 2, fun _ => []⟩, 4, PoolingType.mean,
    fun _ _ => some [], fun _ _ => some [], fun _ _ => some [1], fun _ _ => some [1], [3]⟩

/-- An encoder-only context whose encode pass always fails. -/
def c4Ctx : Context :=
  ⟨encModel, 4, PoolingType.mean,
    fun _ _ => Option.none, fun _ _ => some [], fun _ _ => some [1], fun _ _ => some [1], []⟩

/-! ### Claims -/

/-- C2: for every text whose tokenized length exceeds the context's
batch capacity, `embed_text` returns status 1, the `token_count` output
slot still reports the true untruncated token length, no batch is built
and no inference is performed, and the caller's output buffer is left
unmodified (the call returns the buffer and the context exactly as they
came in). -/
theorem c2_token_limit (ctx : Context) (text : String) (out : Buffer)
    (h : (ctx.model.tokenize text).length > ctx.n_batch) :
    embed_text ctx text out =
      EmbedResult.ret 1 (ctx.model.tokenize text).length out ctx :=
  embed_text_over ctx text out h

/-- Witness for C2 at a concrete over-capacity context. -/
theorem c2_witness :
    (c2Ctx.model.tokenize "abc").length > c2Ctx.n_batch ∧
    embed_text c2Ctx "abc" zeroBuf = EmbedResult.ret 1 3 zeroBuf c2Ctx :=
  ⟨by decide, c2_token_limit c2Ctx "abc" zeroBuf (by decide)⟩

/-- C3: for every text that tokenizes within the context's batch
capacity (the capacity check is passed first) but whose final token is
not the designated separator id, `embed_text` returns status 2 with the
true token count and performs no inference: the buffer and the context
are returned exactly as they came in, and no batch is built. -/
theorem c3_missing_separator (ctx : Context) (text : String) (out : Buffer)
    (hle : (ctx.model.tokenize text).length ≤ ctx.n_batch)
    (hne : ctx.model.tokenize text ≠ [])
    (hsep : (ctx.model.tokenize text).getLast? ≠ some ctx.model.sep) :
    embed_text ctx text out =
      EmbedResult.ret 2 (ctx.model.tokenize text).length out ctx :=
  embed_text_sep ctx text out hle (Or.inr hsep)

/-- Witness for C3 at a concrete context missing the separator. -/
theorem c3_witness :
    (c3Ctx.model.tokenize "a").length ≤ c3Ctx.n_batch ∧
    (c3Ctx.model.tokenize "a").getLast? ≠ some c3Ctx.model.sep ∧
    embed_text c3Ctx "a" zeroBuf = EmbedResult.ret 2 1 zeroBuf c3Ctx :=
  ⟨by decide, by decide,
    c3_missing_separator c3Ctx "a" zeroBuf (by decide) (by decide) (by decide)⟩

/-- C10: for every input text whose tokenization is empty, `embed_text`
returns status 2 — the same code as a missing separator, with no
distinct error for emptiness — sets the `token_count` output slot to 0,
and performs no inference: buffer and context come back untouched. -/
theorem c10_empty_tokenization (ctx : Context) (text : String) (out : Buffer)
    (h : ctx.model.tokenize text = []) :
    embed_text ctx text out = EmbedResult.ret 2 0 out ctx := by
  simpa [h] using embed_text_sep ctx text out (by simp [h]) (Or.inl h)

/-- Witness for C10 at a concrete empty-tokenizing context. -/
theorem c10_witness :
    c10Ctx.model.tokenize "a" = [] ∧
    embed_text c10Ctx "a" zeroBuf = EmbedResult.ret 2 0 zeroBuf c10Ctx :=
  ⟨rfl, c10_empty_tokenization c10Ctx "a" zeroBuf rfl⟩

/-- C4: for every call where input validation passes (within capacity,
separator present) but the dispatched backend encode or decode pass
fails, `embed_text` returns status 3 and no partial output is written:
the caller's output buffer comes back exactly as it went in. -/
theorem c4_inference_failure (ctx : Context) (text : String) (out : Buffer)
    (hle : (ctx.model.tokenize text).length ≤ ctx.n_batch)
    (hsep : (ctx.model.tokenize text).getLast? = some ctx.model.sep)
    (hfail : run_pass ctx (batch_add_seq emptyBatch (ctx.model.tokenize text) 0) =
      Option.none) :
    embed_text ctx text out =
      EmbedResult.ret 3 (ctx.model.tokenize text).length out { ctx with mem := [] } :=
  embed_text_fail ctx text out hle hsep hfail

/-- Witness for C4 at a concrete failing-encode context. -/
theorem c4_witness :
    (c4Ctx.model.tokenize "a").getLast? = some c4Ctx.model.sep ∧
    embed_text c4Ctx "a" zeroBuf = EmbedResult.ret 3 1 zeroBuf { c4Ctx with mem := [] } :=
  ⟨by decide, c4_inference_failure c4Ctx "a" zeroBuf (by decide) (by decide) rfl⟩

/-- C7: for every token sequence, the batch built by the wrapper
(`llama_batch_init` then `batch_add_seq` with sequence id 0) contains
exactly those tokens, with sequential positions `0..n-1`, the single
sequence id 0 on every token, and every token marked for output
extraction. -/
theorem c7_batch_structure (tokens : List Token) :
    batch_add_seq emptyBatch tokens 0 =
      { token := tokens
        pos := (List.range tokens.length).map (fun k => (k : Int))
        seq_id := List.replicate tokens.length [0]
        logits := List.replicate tokens.length true } :=
  batch_add_seq_eq tokens 0

/-- Any returning call hands back the context unchanged except possibly
for its internal inference state. -/
theorem embed_text_ctx_mem (ctx : Context) (text : String) (out : Buffer)
    (s : Int) (n : Nat) (b : Buffer) (ctx' : Context)
    (h : embed_text ctx text out = EmbedResult.ret s n b ctx') :
    ∃ mm : Memory, ctx' = { ctx with mem := mm } := by
  simp only [embed_text] at h
  split at h
  · simp only [EmbedResult.ret.injEq] at h
    exact ⟨ctx.mem, by rw [← h.2.2.2]⟩
  split at h
  · simp only [EmbedResult.ret.injEq] at h
    exact ⟨ctx.mem, by rw [← h.2.2.2]⟩
  split at h
  · exact absurd h (by simp)
  split at h <;>
  · simp only [EmbedResult.ret.injEq] at h
    exact ⟨_, h.2.2.2.symm⟩

/-- C9: the wrapper clears the context's internal inference state before
the forward pass, so nothing the caller observes (status, token count,
output buffer) depends on the incoming state, and a successive
`embed_text` call with the same text on the returned context reproduces
the first call's status, token count, and output vectors, the backend
being modelled as deterministic. -/
theorem c9_determinism (ctx : Context) (m : Memory) (text : String) (out : Buffer) :
    (embed_text { ctx with mem := m } text out).obs = (embed_text ctx text out).obs ∧
    ∀ (s : Int) (n : Nat) (b : Buffer) (ctx' : Context),
      embed_text ctx text out = EmbedResult.ret s n b ctx' →
      (embed_text ctx' text out).obs = some (s, n, b) := by
  refine ⟨embed_text_obs_mem ctx m text out, ?_⟩
  intro s n b ctx' h
  obtain ⟨mm, rfl⟩ := embed_text_ctx_mem ctx text out s n b ctx' h
  rw [embed_text_obs_mem ctx mm text out, h]
  rfl

/-- Witness for C9 at a concrete context (empty tokenization path). -/
theorem c9_witness :
    (embed_text { c10Ctx with mem := [7] } "x" zeroBuf).obs =
      (embed_text c10Ctx "x" zeroBuf).obs ∧
    (embed_text c10Ctx "x" zeroBuf).obs = some (2, 0, zeroBuf) := by
  obtain ⟨h1, h2⟩ := c9_determinism c10Ctx [7] "x" zeroBuf
  exact ⟨h1, h2 2 0 zeroBuf c10Ctx rfl⟩

/-- C8: the normalization scheme is the fixed process-wide Euclidean
setting (`embd_normalize = 2`), under which every raw vector is divided
componentwise by its L2 norm — so an output vector from a raw vector of
nonzero norm has L2 norm exactly 1 (the real-valued model of the float
computation) — and a raw vector whose norm is zero is emitted as the
zero vector with no division performed. -/
theorem c8_l2_normalization :
    embd_normalize = 2 ∧
    ∀ (inp : List ℝ) (n : Nat),
      (Real.sqrt (((readComponents inp n).map fun x => x * x).sum) ≠ 0 →
        Real.sqrt (((common_embd_normalize inp n embd_normalize).map
          fun x => x * x).sum) = 1) ∧
      (Real.sqrt (((readComponents inp n).map fun x => x * x).sum) = 0 →
        common_embd_normalize inp n embd_normalize = List.replicate n 0) :=
  ⟨rfl, fun inp n =>
    ⟨fun h => common_embd_normalize_norm_one inp n h,
     fun h => common_embd_normalize_zero inp n h⟩⟩

/-- Witness for C8 on the raw vector `[3, 4]` (norm 5). -/
theorem c8_witness :
    Real.sqrt (((readComponents [3, 4] 2).map fun x => x * x).sum) ≠ 0 ∧
    Real.sqrt (((common_embd_normalize [3, 4] 2 embd_normalize).map
      fun x => x * x).sum) = 1 := by
  have hsum : ((readComponents [(3 : ℝ), 4] 2).map fun x => x * x).sum = 25 := by
    simp [readComponents, List.range_succ]
    norm_num
  have h : Real.sqrt (((readComponents [(3 : ℝ), 4] 2).map fun x => x * x).sum) ≠ 0 := by
    rw [hsum]
    rw [Real.sqrt_ne_zero']
    norm_num
  exact ⟨h, ((c8_l2_normalization.2 [3, 4] 2).1) h⟩

/-- A per-sequence-pooling encoder-only context whose backend succeeds:
encode yields state `[9]`, sequence retrieval yields `[1]`. -/
def c1Ctx : Context :=
  ⟨encModel, 4, PoolingType.mean,
    fun _ _ => some [9], fun _ _ => some [], fun _ _ => some [1], fun _ _ => some [1], []⟩

/-- C1 as stated is refuted by a backend whose encode pass fails: the
input tokenizes within capacity and ends with the separator, yet
`embed_text` returns status 3, not 0. -/
theorem c1_counterexample :
    (c4Ctx.model.tokenize "x").length ≤ c4Ctx.n_batch ∧
    (c4Ctx.model.tokenize "x").getLast? = some c4Ctx.model.sep ∧
    (embed_text c4Ctx "x" zeroBuf).status = some 3 := by
  refine ⟨by decide, by decide, ?_⟩
  rw [embed_text_fail c4Ctx "x" zeroBuf (by decide) (by decide) rfl]
  rfl

/-- C1 (amended): for every model, context, and text such that the text
tokenizes within the batch capacity with the separator as final token,
provided the model has exactly one of encoder/decoder capability and the
backend pass and the required raw-embedding retrievals succeed,
`embed_text` returns status 0, writes the true token length into the
`token_count` slot, and every vector written to the output buffer has
length `embedding_dimension(model)`. -/
theorem c1_success (ctx : Context) (text : String) (out : Buffer)
    (hle : (ctx.model.tokenize text).length ≤ ctx.n_batch)
    (hsep : (ctx.model.tokenize text).getLast? = some ctx.model.sep)
    (hsingle : ctx.model.has_encoder ≠ ctx.model.has_decoder)
    (m : Memory)
    (hm : run_pass ctx (batch_add_seq emptyBatch (ctx.model.tokenize text) 0) = some m)
    (hretr : if ctx.pooling = PoolingType.none
      then ∀ i < (ctx.model.tokenize text).length, (ctx.embd_ith m i).isSome = true
      else (ctx.embd_seq m 0).isSome = true) :
    ∃ ws : List Write,
      embed_text ctx text out =
        EmbedResult.ret 0 (ctx.model.tokenize text).length (applyWrites out ws)
          { ctx with mem := m } ∧
      ∀ w ∈ ws, ((w.2).length : Int) = embed_size ctx.model := by
  have hsize : embed_size ctx.model = (ctx.model.n_embd : Int) := by
    unfold embed_size
    rw [if_neg]
    intro hb
    rw [Bool.and_eq_true] at hb
    rw [hb.1, hb.2] at hsingle
    exact hsingle rfl
  by_cases hpool : ctx.pooling = PoolingType.none
  · rw [if_pos hpool] at hretr
    refine ⟨_, embed_text_ok_tok ctx text out hpool hle hsep m hm hretr, ?_⟩
    intro w hw
    obtain ⟨i, _, rfl⟩ := List.mem_map.mp hw
    rw [hsize]
    rw [common_embd_normalize_length]
  · rw [if_neg hpool] at hretr
    obtain ⟨v, hv⟩ := Option.isSome_iff_exists.mp hretr
    refine ⟨_, embed_text_ok_seq ctx text out hpool hle hsep m hm v hv, ?_⟩
    intro w hw
    obtain ⟨i, _, rfl⟩ := List.mem_map.mp hw
    rw [hsize]
    rw [common_embd_normalize_length]

/-- Witness for C1 at a concrete succeeding encoder-only context. -/
theorem c1_witness :
    (c1Ctx.model.tokenize "x").length ≤ c1Ctx.n_batch ∧
    ∃ ws : List Write,
      embed_text c1Ctx "x" zeroBuf =
        EmbedResult.ret 0 (c1Ctx.model.tokenize "x").length (applyWrites zeroBuf ws)
          { c1Ctx with mem := [9] } ∧
      ∀ w ∈ ws, ((w.2).length : Int) = embed_size c1Ctx.model :=
  ⟨by decide,
    c1_success c1Ctx "x" zeroBuf (by decide) (by decide) (by decide) [9] rfl
      (by rw [if_neg (by decide : ¬(c1Ctx.pooling = PoolingType.none))]; rfl)⟩

/-- A context over a model reporting both encoder and decoder
capability (dimension 4); the wrapper then runs no pass but still
extracts from the cleared state, here yielding `[1, 0, 0, 0]`. -/
def c5Ctx : Context :=
  ⟨⟨true, true, 4, 2, fun _ => [2]⟩, 4, PoolingType.mean,
    fun _ _ => some [], fun _ _ => some [], fun _ _ => some [1, 0, 0, 0],
    fun _ _ => some [1, 0, 0, 0], []⟩

/-- The unit vector `[1, 0, 0, 0]` normalizes to itself. -/
theorem normalize_unit4 : common_embd_normalize [1, 0, 0, 0] 4 2 = [1, 0, 0, 0] := by
  unfold common_embd_normalize
  rw [if_pos rfl]
  have hv : (List.range 4).map (fun i => ([1, 0, 0, 0] : List ℝ).getD i 0) =
      [1, 0, 0, 0] := by
    simp [List.range_succ]
  rw [hv]
  have hsum : (([1, 0, 0, 0] : List ℝ).map fun x => x * x).sum = 1 := by norm_num
  rw [hsum, Real.sqrt_one, if_neg one_ne_zero]
  norm_num

/-- C5 as stated is refuted by a model with both encoder and decoder
capability: `embed_size` returns the sentinel −1, yet `embed_text` on
that model still succeeds and produces vectors of length `n_embd` = 4,
which −1 does not equal. -/
theorem c5_counterexample :
    embed_size c5Ctx.model = -1 ∧
    c5Ctx.model.n_embd = 4 ∧
    (embed_text c5Ctx "x" zeroBuf).status = some 0 ∧
    (embed_text c5Ctx "x" zeroBuf).bufAt 0 = some 1 ∧
    ((4 : Int) ≠ -1) := by
  have hrun := embed_text_ok_seq c5Ctx "x" zeroBuf (by decide) (by decide) (by decide)
    [] rfl [1, 0, 0, 0] rfl
  refine ⟨by decide, rfl, ?_, ?_, by decide⟩
  · rw [hrun]
    rfl
  · rw [hrun]
    show some (applyWrites zeroBuf
      (List.map (fun _ => ((0 : Int) * ((4 : Nat) : Int),
        common_embd_normalize [1, 0, 0, 0] 4 2)) (List.range 1)) 0) = some 1
    rw [normalize_unit4]
    simp [applyWrites, writeVec, zeroBuf, List.range_succ]

/-- C5 (amended): `embed_size` returns the sentinel −1 exactly when the
model reports both encoder and decoder capability; otherwise it returns
the model's embedding vector length, it is deterministic (a pure
function of the model), and it equals the length of every vector the
pipeline produces for that model (`embed_text` normalizes each raw
vector through `common_embd_normalize` at `n = n_embd`). -/
theorem c5_embed_size (m : Model) :
    (embed_size m = -1 ↔ (m.has_encoder && m.has_decoder) = true) ∧
    ((m.has_encoder && m.has_decoder) = false →
      embed_size m = (m.n_embd : Int) ∧
      ∀ (inp : List ℝ) (en : Int),
        ((common_embd_normalize inp m.n_embd en).length : Int) = embed_size m) := by
  by_cases hx : (m.has_encoder && m.has_decoder) = true
  · constructor
    · simp only [embed_size, if_pos hx]
      simp [hx]
    · intro h
      rw [hx] at h
      exact absurd h (by decide)
  · constructor
    · simp only [embed_size, if_neg hx]
      constructor
      · intro h
        exact absurd h (by omega)
      · intro h
        exact absurd h hx
    · intro _
      refine ⟨by simp only [embed_size, if_neg hx], fun inp en => ?_⟩
      rw [common_embd_normalize_length]
      simp only [embed_size, if_neg hx]

/-- Witness for C5 (amended) at a concrete encoder-only model. -/
theorem c5_witness :
    (encModel.has_encoder && encModel.has_decoder) = false ∧
    embed_size encModel = (1 : Int) ∧
    ((common_embd_normalize [1, 1] encModel.n_embd 2).length : Int) =
      embed_size encModel := by
  have h := (c5_embed_size encModel).2 (by decide)
  exact ⟨by decide, h.1, h.2 [1, 1] 2⟩

/-- A per-token-pooling encoder-only context: dimension 1, two-token
input, every per-position retrieval yielding `[1]`. -/
def c6Ctx : Context :=
  ⟨⟨true, false, 1, 2, fun _ => [2, 2]⟩, 4, PoolingType.none,
    fun _ _ => some [], fun _ _ => some [], fun _ _ => some [1], fun _ _ => some [1], []⟩

/-- The unit vector `[1]` normalizes to itself. -/
theorem normalize_unit1 : common_embd_normalize [1] 1 2 = [1] := by
  unfold common_embd_normalize
  rw [if_pos rfl]
  have hv : (List.range 1).map (fun i => ([1] : List ℝ).getD i 0) = [1] := by
    simp [List.range_succ]
  rw [hv]
  have hsum : (([1] : List ℝ).map fun x => x * x).sum = 1 := by norm_num
  rw [hsum, Real.sqrt_one, if_neg one_ne_zero]
  norm_num

/-- C6 as stated is refuted in per-token pooling mode: with
`n_embd = 1` and a two-token input the pipeline writes at offset
`1 * n_embd = 1`, outside the `embedding_dimension` floats per produced
sequence (one sequence, region `[0, 1)`) that the claim says bound the
writes: the buffer, all zero on entry, holds 1 at offset 1 afterwards. -/
theorem c6_counterexample :
    c6Ctx.model.n_embd = 1 ∧
    c6Ctx.pooling = PoolingType.none ∧
    (embed_text c6Ctx "x" zeroBuf).status = some 0 ∧
    (embed_text c6Ctx "x" zeroBuf).bufAt 1 = some 1 ∧
    zeroBuf 1 = 0 := by
  have hrun := embed_text_ok_tok c6Ctx "x" zeroBuf rfl (by decide) (by decide)
    [] rfl (fun i _ => rfl)
  refine ⟨rfl, rfl, ?_, ?_, rfl⟩
  · rw [hrun]
    rfl
  · rw [hrun]
    show some (applyWrites zeroBuf
      (List.map (fun i => (Int.ofNat i * ((1 : Nat) : Int),
        common_embd_normalize [1] 1 2)) (List.range 2)) 1) = some 1
    simp only [normalize_unit1]
    simp [applyWrites, writeVec, zeroBuf, List.range_succ]

/-- C6 (amended): in a per-sequence pooling mode (the mode in which one
vector per sequence is produced — one sequence, id 0, per call in this
pipeline) each extracted vector is written at offset
`slot_index * embedding_dimension` with `slot_index` the sequence id 0,
and the pipeline writes only inside the first `embedding_dimension`
floats of the caller's buffer; in per-token mode the slot index is the
token position, so the caller must size the region at
`token_count * embedding_dimension` floats instead. -/
theorem c6_write_offsets (ctx : Context) (text : String) (out : Buffer)
    (hpool : ctx.pooling ≠ PoolingType.none)
    (hle : (ctx.model.tokenize text).length ≤ ctx.n_batch)
    (hsep : (ctx.model.tokenize text).getLast? = some ctx.model.sep)
    (m : Memory)
    (hm : run_pass ctx (batch_add_seq emptyBatch (ctx.model.tokenize text) 0) = some m)
    (v : List ℝ) (hv : ctx.embd_seq m 0 = some v) :
    embed_text ctx text out =
      EmbedResult.ret 0 (ctx.model.tokenize text).length
        (applyWrites out ((List.range (ctx.model.tokenize text).length).map
          (fun _ => ((0 : Int) * (ctx.model.n_embd : Int),
            common_embd_normalize v ctx.model.n_embd embd_normalize))))
        { ctx with mem := m } ∧
    ∀ j : Int, (j < 0 ∨ (ctx.model.n_embd : Int) ≤ j) →
      applyWrites out ((List.range (ctx.model.tokenize text).length).map
        (fun _ => ((0 : Int) * (ctx.model.n_embd : Int),
          common_embd_normalize v ctx.model.n_embd embd_normalize))) j = out j := by
  refine ⟨embed_text_ok_seq ctx text out hpool hle hsep m hm v hv, ?_⟩
  intro j hj
  apply applyWrites_outside
  intro w hw
  obtain ⟨i, _, rfl⟩ := List.mem_map.mp hw
  simp only [common_embd_normalize_length, zero_mul]
  omega

/-- Witness for C6 (amended) at a concrete per-sequence context. -/
theorem c6_witness :
    c1Ctx.pooling ≠ PoolingType.none ∧
    (embed_text c1Ctx "x" zeroBuf =
      EmbedResult.ret 0 (c1Ctx.model.tokenize "x").length
        (applyWrites zeroBuf ((List.range (c1Ctx.model.tokenize "x").length).map
          (fun _ => ((0 : Int) * (c1Ctx.model.n_embd : Int),
            common_embd_normalize [1] c1Ctx.model.n_embd embd_normalize))))
        { c1Ctx with mem := [9] } ∧
    ∀ j : Int, (j < 0 ∨ (c1Ctx.model.n_embd : Int) ≤ j) →
      applyWrites zeroBuf ((List.range (c1Ctx.model.tokenize "x").length).map
        (fun _ => ((0 : Int) * (c1Ctx.model.n_embd : Int),
          common_embd_normalize [1] c1Ctx.model.n_embd embd_normalize))) j = zeroBuf j) :=
  ⟨by decide,
    c6_write_offsets c1Ctx "x" zeroBuf (by decide) (by decide) (by decide) [9] rfl [1] rfl⟩

end LlamaGo
